import Mathlib
/-!
Shallow embedding of `sticker_simulation.py`
(freddyalfonsoboulton/worldcupstickers).

Modelling conventions, all taken from the source:
* `np.random.choice(range(n), k, replace=True)` is modelled by an explicit
  stream of naturals (`Rng`): the next `k` stream values reduced mod `n`;
  each draw advances the stream index.
* `Person.repeats` is a Python `defaultdict(int)`.  It is modelled by its
  key set `rkeys` together with the total value map `repeats : ℕ → ℤ`
  (an absent key reads as 0; values are Python ints, so they may go
  negative).  Key iteration (`for k in person.repeats`) is iteration over
  `rkeys`.
* Python objects are mutated in place; the embedding passes `Person` and
  `Economy` values explicitly and writes updated persons back into
  `members` where the aliasing in the source makes the dict see the
  mutation.
* `Economy.finishers` feeds only the `print` progress log in
  `run_simulation` and has no other effect, so it is not modelled;
  `update_member` is the write-back into `members`.
-/

/-! ## Data model and operations, embedded from the source -/

/-- A deterministic stand-in for numpy's global random generator: an
infinite stream of naturals plus a cursor. -/
structure Rng where
  stream : ℕ → ℕ
  idx : ℕ

/-- Draw `k` sticker identifiers uniformly from `range n`
(`np.random.choice(range(n), k, replace=True)`), advancing the cursor. -/
def Rng.draw (r : Rng) (n k : ℕ) : List ℕ × Rng :=
  ((List.range k).map fun j => r.stream (r.idx + j) % n, ⟨r.stream, r.idx + k⟩)

/-- The `Person` object of the source: album set, repeats defaultdict
(split into key set `rkeys` and value map `repeats`), finished flag,
money spent, and the album size. -/
structure Person where
  album : Finset ℕ
  rkeys : Finset ℕ
  repeats : ℕ → ℤ
  is_finished : Bool
  money_spent : ℕ
  n_stickers : ℕ

/-- The field state set up by `Person.__init__` just before its initial
`buy_pack` call. -/
def Person.mk0 (n_stickers : ℕ) : Person :=
  { album := ∅, rkeys := ∅, repeats := fun _ => 0,
    is_finished := false, money_spent := 0, n_stickers := n_stickers }

/-- `Person.finished`: set `is_finished` when the album is complete;
never unset it. -/
def Person.finished (p : Person) : Person :=
  if p.album.card = p.n_stickers then { p with is_finished := true } else p

/-- `Person.update_collection(stickers_giving, stickers_receving)`:
add every received sticker to the album, decrement the repeat count of
every given sticker (creating the defaultdict key), then recompute
`finished`.  The argument sets are Python sets, so each element is
processed once. -/
def Person.update_collection (p : Person) (stickers_giving stickers_receving : Finset ℕ) :
    Person :=
  Person.finished
    { p with
      album := p.album ∪ stickers_receving,
      rkeys := p.rkeys ∪ stickers_giving,
      repeats := fun s => if s ∈ stickers_giving then p.repeats s - 1 else p.repeats s }

/-- The loop body of `buy_pack`: a drawn sticker goes to the album if it
is new, otherwise its repeat count is bumped. -/
def Person.addSticker (p : Person) (sticker : ℕ) : Person :=
  if sticker ∉ p.album then { p with album := insert sticker p.album }
  else
    { p with rkeys := insert sticker p.rkeys,
             repeats := Function.update p.repeats sticker (p.repeats sticker + 1) }

/-- `Person.buy_pack` on an already-drawn pack: charge one unit, file each
sticker, recompute `finished`. -/
def Person.buy_pack (p : Person) (new_pack : List ℕ) : Person :=
  Person.finished (new_pack.foldl Person.addSticker { p with money_spent := p.money_spent + 1 })

/-- `Person.buy_pack` including the random draw of the pack. -/
def Person.buy_pack_draw (p : Person) (r : Rng) (stickers_per_pack : ℕ) : Person × Rng :=
  let d := Rng.draw r p.n_stickers stickers_per_pack
  (p.buy_pack d.1, d.2)

/-- `Person.__init__(endowment, n_stickers)`: fresh fields, then one pack
of size `endowment`. -/
def Person.new (endowment n_stickers : ℕ) (r : Rng) : Person × Rng :=
  (Person.mk0 n_stickers).buy_pack_draw r endowment

/-- The set `set(k for k in p.repeats if p.repeats[k] > 0)` of stickers a
person can offer in trade. -/
def Person.can_give (p : Person) : Finset ℕ :=
  p.rkeys.filter fun k => 0 < p.repeats k

/-- What `p` can receive from `q`: `q`'s offerable stickers that are not
in `p`'s album. -/
def receivable (p q : Person) : Finset ℕ := q.can_give \ p.album

/-- `Economy.trade(person1, person2)`: compute both offerable sets and
both receivable sets; if both receivable sets are non-empty, settle the
all-or-nothing exchange through `update_collection`, otherwise change
nothing. -/
def Economy.trade (person1 person2 : Person) : Bool × Person × Person :=
  let person2_can_give := person2.rkeys.filter fun k => 0 < person2.repeats k
  let person1_can_give := person1.rkeys.filter fun k => 0 < person1.repeats k
  let person1_can_receive := person2_can_give \ person1.album
  let person2_can_receive := person1_can_give \ person2.album
  if 0 < person1_can_receive.card ∧ 0 < person2_can_receive.card then
    (true, person1.update_collection person2_can_receive person1_can_receive,
     person2.update_collection person1_can_receive person2_can_receive)
  else (false, person1, person2)

/-- The `Economy` object.  `members` is the dict `"id0" .. "id(n-1)"`,
modelled as a map from the numeric part of the key; indices `≥ n_friends`
are never consulted.  The identity-keyed `finishers` set only feeds the
progress printout and is not modelled. -/
structure Economy where
  n_friends : ℕ
  n_randos : ℕ
  stickers_per_pack : ℕ
  n_stickers : ℕ
  members : ℕ → Person

/-- The loop body of `create_people`: construct one friend from the
stream and file it under its id. -/
def createStep (endowment n_stickers : ℕ) (st : (ℕ → Person) × Rng) (i : ℕ) :
    (ℕ → Person) × Rng :=
  let pr := Person.new endowment n_stickers st.2
  (Function.update st.1 i pr.1, pr.2)

/-- `Economy.create_people`: build one `Person` per friend, consuming the
random stream in key order.  The base function stands for the empty dict
and is never consulted at ids below `n_friends`. -/
def create_people (n_friends endowment n_stickers : ℕ) (r : Rng) : (ℕ → Person) × Rng :=
  (List.range n_friends).foldl (createStep endowment n_stickers)
    (fun _ => Person.mk0 n_stickers, r)

/-- `Economy.__init__`. -/
def Economy.new (n_friends starting_endowment n_randos stickers_per_pack
    n_stickers_in_album : ℕ) (r : Rng) : Economy × Rng :=
  let ms := create_people n_friends starting_endowment n_stickers_in_album r
  ({ n_friends := n_friends, n_randos := n_randos, stickers_per_pack := stickers_per_pack,
     n_stickers := n_stickers_in_album, members := ms.1 }, ms.2)

/-- The pair list `combinations(self.members, 2)` in dict insertion
order. -/
def pairsList (n : ℕ) : List (ℕ × ℕ) :=
  (List.range n).flatMap fun i => ((List.range n).drop (i + 1)).map fun j => (i, j)

/-- One iteration of the friend-pairing loop of `round_of_trade`: skip
the pair if either side is finished, otherwise attempt the trade and, on
success, record both ids in `have_traded`, recompute `finished` and write
both persons back (`update_member`). -/
def phase1Step (st : (ℕ → Person) × Finset ℕ) (pr : ℕ × ℕ) : (ℕ → Person) × Finset ℕ :=
  let person1 := st.1 pr.1
  let person2 := st.1 pr.2
  if person1.is_finished ∨ person2.is_finished then st
  else
    let t := Economy.trade person1 person2
    if t.1 then
      (Function.update (Function.update st.1 pr.1 t.2.1.finished) pr.2 t.2.2.finished,
       insert pr.2 (insert pr.1 st.2))
    else st

/-- One iteration of the inner stranger loop: construct a fresh rando
from the stream, attempt the trade; on success record the friend's id and
recompute `finished`.  The rando is discarded either way. -/
def randoStep (n_stickers rando_endowment person_id : ℕ)
    (st : Person × Finset ℕ × Rng) (_i : ℕ) : Person × Finset ℕ × Rng :=
  let pr := Person.new rando_endowment n_stickers st.2.2
  let t := Economy.trade st.1 pr.1
  if t.1 then (t.2.1.finished, insert person_id st.2.1, pr.2)
  else (t.2.1, st.2.1, pr.2)

/-- One iteration of the stranger-trading loop of `round_of_trade`: a
finished friend is skipped at entry, otherwise it trades against
`n_randos` fresh strangers in sequence and its final state is written
back into `members` (in the source the dict aliases the mutated
object). -/
def phase2Step (n_stickers n_randos rando_endowment : ℕ)
    (st : (ℕ → Person) × Finset ℕ × Rng) (person_id : ℕ) : (ℕ → Person) × Finset ℕ × Rng :=
  let person := st.1 person_id
  if person.is_finished then st
  else
    let res := (List.range n_randos).foldl (randoStep n_stickers rando_endowment person_id)
      (person, st.2.1, st.2.2)
    (Function.update st.1 person_id res.1, res.2.1, res.2.2)

/-- One iteration of the fallback-purchase loop of `round_of_trade`: the
member buys one pack, recomputes `finished` and is written back. -/
def phase3Step (stickers_per_pack : ℕ) (st : (ℕ → Person) × Rng) (person_id : ℕ) :
    (ℕ → Person) × Rng :=
  let person := st.1 person_id
  let b := person.buy_pack_draw st.2 stickers_per_pack
  (Function.update st.1 person_id b.1.finished, b.2)

/-- Phases 1 and 2 of `round_of_trade`: friend pairing then stranger
trading, starting from an empty `have_traded` set.  Returns the members,
the `have_traded` id set and the advanced stream. -/
def Economy.phase12 (e : Economy) (rando_endowment : ℕ) (r : Rng) :
    (ℕ → Person) × Finset ℕ × Rng :=
  let st1 := (pairsList e.n_friends).foldl phase1Step (e.members, (∅ : Finset ℕ))
  (List.range e.n_friends).foldl (phase2Step e.n_stickers e.n_randos rando_endowment)
    (st1.1, st1.2, r)

/-- `Economy.round_of_trade`: phases 1–2, then every member whose id is
not in `have_traded` buys one pack.  The source iterates the Python set
`set(members) - have_traded`, whose order is unspecified; it is modelled
in increasing id order (no stated property depends on the order). -/
def Economy.round_of_trade (e : Economy) (rando_endowment : ℕ) (r : Rng) : Economy × Rng :=
  let st2 := e.phase12 rando_endowment r
  let st3 := ((List.range e.n_friends).filter fun j => decide (j ∉ st2.2.1)).foldl
    (phase3Step e.stickers_per_pack) (st2.1, st2.2.2)
  ({ e with members := st3.1 }, st3.2)

/-- `sum(self.members[p].is_finished for p in self.members)`. -/
def Economy.n_finished (e : Economy) : ℕ :=
  ((List.range e.n_friends).filter fun i => (e.members i).is_finished).length

/-- `Economy.run_simulation`, with an explicit fuel bound standing in for
the unbounded `while` loop (the source loops until every friend is
finished; the logging interval only controls prints and is not
modelled).  Returns the number of rounds executed together with the
final state. -/
def Economy.run_simulation : Economy → ℕ → Rng → ℕ → ℕ × Economy × Rng
  | e, _, r, 0 => (0, e, r)
  | e, rando_endowment, r, fuel + 1 =>
    if e.n_finished < e.n_friends then
      let st := e.round_of_trade rando_endowment r
      let rest := st.1.run_simulation rando_endowment st.2 fuel
      (rest.1 + 1, rest.2)
    else (0, e, r)

/-- A collector holding sticker 0 once and one spare copy of sticker 0. -/
def pEx1 : Person :=
  { album := {0}, rkeys := {0}, repeats := fun k => if k = 0 then 1 else 0,
    is_finished := false, money_spent := 0, n_stickers := 2 }

/-- A collector holding sticker 1 once and one spare copy of sticker 1. -/
def pEx2 : Person :=
  { album := {1}, rkeys := {1}, repeats := fun k => if k = 1 then 1 else 0,
    is_finished := false, money_spent := 0, n_stickers := 2 }

/-- A collector with an empty album and a spare copy of sticker 5. -/
def pDup : Person :=
  { album := ∅, rkeys := {5}, repeats := fun k => if k = 5 then 1 else 0,
    is_finished := false, money_spent := 0, n_stickers := 10 }

/-- One call of the two mutators a `Person` exposes, with the randomly
drawn pack made explicit for `buy_pack`. -/
inductive SimOp where
  | buy (pack : List ℕ)
  | upd (giving receiving : Finset ℕ)

def applySimOp (p : Person) : SimOp → Person
  | SimOp.buy pack => p.buy_pack pack
  | SimOp.upd g rc => p.update_collection g rc

/-- An operation only introduces sticker identifiers below `n`, as every
pack draw and every traded sticker does in the source. -/
def SimOp.inRange (n : ℕ) : SimOp → Prop
  | SimOp.buy pack => ∀ s ∈ pack, s < n
  | SimOp.upd _ receiving => ∀ s ∈ receiving, s < n

/-- The invariant behind C6: fixed album size, album within range, and a
finished flag equivalent to album completion. -/
def Person.wf (p : Person) (n : ℕ) : Prop :=
  p.n_stickers = n ∧ p.album ⊆ Finset.range n ∧
    (p.is_finished = true ↔ p.album.card = n)

/-- Collector A exactly as the claim words it: sticker 0 in the album,
sticker 1 as a duplicate with count 1. -/
def pC4A : Person :=
  { album := {0}, rkeys := {1}, repeats := fun k => if k = 1 then 1 else 0,
    is_finished := false, money_spent := 0, n_stickers := 2 }

/-- Collector B exactly as the claim words it: sticker 1 in the album,
sticker 0 as a duplicate with count 1. -/
def pC4B : Person :=
  { album := {1}, rkeys := {0}, repeats := fun k => if k = 0 then 1 else 0,
    is_finished := false, money_spent := 0, n_stickers := 2 }

/-- A member that is already finished: full album over a one-sticker
album, flag set, one pack paid. -/
def pFin : Person :=
  { album := {0}, rkeys := ∅, repeats := fun _ => 0,
    is_finished := true, money_spent := 1, n_stickers := 1 }

/-- A member that is not finished yet: empty album over a one-sticker
album, one pack paid. -/
def pUnfin : Person :=
  { album := ∅, rkeys := ∅, repeats := fun _ => 0,
    is_finished := false, money_spent := 1, n_stickers := 1 }

/-- Two friends, no strangers, one-sticker packs: member 0 finished,
member 1 not. -/
def econC3 : Economy :=
  { n_friends := 2, n_randos := 0, stickers_per_pack := 1, n_stickers := 1,
    members := fun i => if i = 0 then pFin else pUnfin }

/-- The all-zero random stream. -/
def rng0 : Rng := ⟨fun _ => 0, 0⟩

/-- One friend over a two-sticker album with nothing to trade. -/
def econW : Economy :=
  { n_friends := 1, n_randos := 0, stickers_per_pack := 1, n_stickers := 2,
    members := fun _ => Person.mk0 2 }

/-! ## Lemmas and claim theorems -/

theorem Person.finished_album (p : Person) : p.finished.album = p.album := by
  unfold Person.finished; split <;> rfl

theorem Person.finished_rkeys (p : Person) : p.finished.rkeys = p.rkeys := by
  unfold Person.finished; split <;> rfl

theorem Person.finished_repeats (p : Person) : p.finished.repeats = p.repeats := by
  unfold Person.finished; split <;> rfl

theorem Person.finished_money (p : Person) : p.finished.money_spent = p.money_spent := by
  unfold Person.finished; split <;> rfl

theorem Person.finished_n (p : Person) : p.finished.n_stickers = p.n_stickers := by
  unfold Person.finished; split <;> rfl

theorem Person.finished_flag (p : Person) :
    p.finished.is_finished = true ↔ p.album.card = p.n_stickers ∨ p.is_finished = true := by
  unfold Person.finished
  split
  · simp [*]
  · simp [*]

theorem Person.finished_mono (p : Person) (h : p.is_finished = true) :
    p.finished.is_finished = true := (Person.finished_flag p).mpr (Or.inr h)

theorem Person.update_collection_album (p : Person) (g rc : Finset ℕ) :
    (p.update_collection g rc).album = p.album ∪ rc := by
  unfold Person.update_collection; rw [Person.finished_album]

theorem Person.update_collection_rkeys (p : Person) (g rc : Finset ℕ) :
    (p.update_collection g rc).rkeys = p.rkeys ∪ g := by
  unfold Person.update_collection; rw [Person.finished_rkeys]

theorem Person.update_collection_repeats (p : Person) (g rc : Finset ℕ) (s : ℕ) :
    (p.update_collection g rc).repeats s = if s ∈ g then p.repeats s - 1 else p.repeats s := by
  unfold Person.update_collection; rw [Person.finished_repeats]

theorem Person.update_collection_money (p : Person) (g rc : Finset ℕ) :
    (p.update_collection g rc).money_spent = p.money_spent := by
  unfold Person.update_collection; rw [Person.finished_money]

theorem Person.update_collection_n (p : Person) (g rc : Finset ℕ) :
    (p.update_collection g rc).n_stickers = p.n_stickers := by
  unfold Person.update_collection; rw [Person.finished_n]

theorem Person.addSticker_album (p : Person) (s : ℕ) :
    (p.addSticker s).album = insert s p.album := by
  unfold Person.addSticker
  split
  · rfl
  · next h =>
    have hs : s ∈ p.album := not_not.mp h
    exact (Finset.insert_eq_self.mpr hs).symm

theorem Person.addSticker_money (p : Person) (s : ℕ) :
    (p.addSticker s).money_spent = p.money_spent := by
  unfold Person.addSticker; split <;> rfl

theorem Person.addSticker_flag (p : Person) (s : ℕ) :
    (p.addSticker s).is_finished = p.is_finished := by
  unfold Person.addSticker; split <;> rfl

theorem Person.addSticker_n (p : Person) (s : ℕ) :
    (p.addSticker s).n_stickers = p.n_stickers := by
  unfold Person.addSticker; split <;> rfl

theorem foldl_addSticker_album (l : List ℕ) (p : Person) :
    (l.foldl Person.addSticker p).album = p.album ∪ l.toFinset := by
  induction l generalizing p with
  | nil => simp
  | cons a t ih =>
    rw [List.foldl_cons, ih, Person.addSticker_album, List.toFinset_cons,
      Finset.insert_union, Finset.union_insert]

theorem foldl_addSticker_money (l : List ℕ) (p : Person) :
    (l.foldl Person.addSticker p).money_spent = p.money_spent := by
  induction l generalizing p with
  | nil => rfl
  | cons a t ih => rw [List.foldl_cons, ih, Person.addSticker_money]

theorem foldl_addSticker_flag (l : List ℕ) (p : Person) :
    (l.foldl Person.addSticker p).is_finished = p.is_finished := by
  induction l generalizing p with
  | nil => rfl
  | cons a t ih => rw [List.foldl_cons, ih, Person.addSticker_flag]

theorem foldl_addSticker_n (l : List ℕ) (p : Person) :
    (l.foldl Person.addSticker p).n_stickers = p.n_stickers := by
  induction l generalizing p with
  | nil => rfl
  | cons a t ih => rw [List.foldl_cons, ih, Person.addSticker_n]

theorem Person.buy_pack_album (p : Person) (l : List ℕ) :
    (p.buy_pack l).album = p.album ∪ l.toFinset := by
  unfold Person.buy_pack
  rw [Person.finished_album, foldl_addSticker_album]

theorem Person.buy_pack_money (p : Person) (l : List ℕ) :
    (p.buy_pack l).money_spent = p.money_spent + 1 := by
  unfold Person.buy_pack
  rw [Person.finished_money, foldl_addSticker_money]

theorem Person.buy_pack_n (p : Person) (l : List ℕ) :
    (p.buy_pack l).n_stickers = p.n_stickers := by
  unfold Person.buy_pack
  rw [Person.finished_n, foldl_addSticker_n]

theorem Person.buy_pack_flag (p : Person) (l : List ℕ) :
    (p.buy_pack l).is_finished = true ↔
      (p.album ∪ l.toFinset).card = p.n_stickers ∨ p.is_finished = true := by
  unfold Person.buy_pack
  rw [Person.finished_flag, foldl_addSticker_album, foldl_addSticker_flag,
    foldl_addSticker_n]

theorem trade_def (a b : Person) :
    Economy.trade a b =
      if 0 < (receivable a b).card ∧ 0 < (receivable b a).card then
        (true, a.update_collection (receivable b a) (receivable a b),
         b.update_collection (receivable a b) (receivable b a))
      else (false, a, b) := rfl

theorem trade_pos (a b : Person) (h : (receivable a b).Nonempty)
    (h' : (receivable b a).Nonempty) :
    Economy.trade a b =
      (true, a.update_collection (receivable b a) (receivable a b),
       b.update_collection (receivable a b) (receivable b a)) := by
  rw [trade_def, if_pos ⟨Finset.card_pos.mpr h, Finset.card_pos.mpr h'⟩]

theorem trade_neg (a b : Person)
    (h : ¬((receivable a b).Nonempty ∧ (receivable b a).Nonempty)) :
    Economy.trade a b = (false, a, b) := by
  rw [trade_def, if_neg]
  intro hc
  exact h ⟨Finset.card_pos.mp hc.1, Finset.card_pos.mp hc.2⟩

theorem mem_receivable {p q : Person} {k : ℕ} (h : k ∈ receivable p q) :
    0 < q.repeats k ∧ k ∉ p.album := by
  rw [receivable, Finset.mem_sdiff, Person.can_give, Finset.mem_filter] at h
  exact ⟨h.1.2, h.2⟩

theorem trade_money (a b : Person) :
    (Economy.trade a b).2.1.money_spent = a.money_spent ∧
    (Economy.trade a b).2.2.money_spent = b.money_spent := by
  rw [trade_def]
  split
  · exact ⟨Person.update_collection_money a _ _, Person.update_collection_money b _ _⟩
  · exact ⟨rfl, rfl⟩

/-- C1: `Economy.trade a b` changes `a` or `b` if and only if both
receivable sets are non-empty before the call; when either is empty the
call returns not-traded and both persons come back entirely unchanged. -/
theorem trade_mutates_iff (a b : Person) :
    (((Economy.trade a b).2.1 ≠ a ∨ (Economy.trade a b).2.2 ≠ b) ↔
      (receivable a b).Nonempty ∧ (receivable b a).Nonempty) ∧
    (¬((receivable a b).Nonempty ∧ (receivable b a).Nonempty) →
      Economy.trade a b = (false, a, b)) := by
  refine ⟨⟨?_, ?_⟩, trade_neg a b⟩
  · intro h
    by_contra hc
    rw [trade_neg a b hc] at h
    simp at h
  · rintro ⟨h1, h2⟩
    left
    rw [trade_pos a b h1 h2]
    dsimp only
    intro he
    obtain ⟨x, hx⟩ := h1
    have hxalb : x ∈ (a.update_collection (receivable b a) (receivable a b)).album := by
      rw [Person.update_collection_album]
      exact Finset.mem_union_right _ hx
    rw [he] at hxalb
    exact (mem_receivable hx).2 hxalb

theorem trade_mutates_iff_witness :
    Economy.trade (Person.mk0 2) (Person.mk0 2) = (false, Person.mk0 2, Person.mk0 2) :=
  (trade_mutates_iff (Person.mk0 2) (Person.mk0 2)).2 (by decide)

/-- C2: when a trade executes, every sticker of `a`'s receivable set ends
up in `a`'s album with `b`'s repeat count for it decremented by exactly
one, and symmetrically. -/
theorem trade_conservation (a b : Person)
    (ha : (receivable a b).Nonempty) (hb : (receivable b a).Nonempty) :
    (∀ k ∈ receivable a b, k ∈ (Economy.trade a b).2.1.album ∧
      (Economy.trade a b).2.2.repeats k = b.repeats k - 1) ∧
    (∀ k ∈ receivable b a, k ∈ (Economy.trade a b).2.2.album ∧
      (Economy.trade a b).2.1.repeats k = a.repeats k - 1) := by
  rw [trade_pos a b ha hb]
  dsimp only
  constructor
  · intro k hk
    refine ⟨?_, ?_⟩
    · rw [Person.update_collection_album]
      exact Finset.mem_union_right _ hk
    · rw [Person.update_collection_repeats, if_pos hk]
  · intro k hk
    refine ⟨?_, ?_⟩
    · rw [Person.update_collection_album]
      exact Finset.mem_union_right _ hk
    · rw [Person.update_collection_repeats, if_pos hk]

theorem trade_conservation_witness :
    1 ∈ (Economy.trade pEx1 pEx2).2.1.album ∧
    (Economy.trade pEx1 pEx2).2.2.repeats 1 = pEx2.repeats 1 - 1 :=
  (trade_conservation pEx1 pEx2 (by decide) (by decide)).1 1 (by decide)

/-- C7: each party's giving set only contains stickers whose repeat
count was positive before the call, a repeat count changes only by an
exact decrement on such a sticker, and a non-negative repeat count stays
non-negative through a trade. -/
theorem trade_no_underflow (a b : Person) (k : ℕ) :
    (k ∈ receivable b a → 0 < a.repeats k) ∧
    (k ∈ receivable a b → 0 < b.repeats k) ∧
    ((Economy.trade a b).2.1.repeats k = a.repeats k ∨
      ((Economy.trade a b).2.1.repeats k = a.repeats k - 1 ∧ 0 < a.repeats k)) ∧
    ((Economy.trade a b).2.2.repeats k = b.repeats k ∨
      ((Economy.trade a b).2.2.repeats k = b.repeats k - 1 ∧ 0 < b.repeats k)) ∧
    (0 ≤ a.repeats k → 0 ≤ (Economy.trade a b).2.1.repeats k) ∧
    (0 ≤ b.repeats k → 0 ≤ (Economy.trade a b).2.2.repeats k) := by
  have hda : ((Economy.trade a b).2.1.repeats k = a.repeats k ∨
      ((Economy.trade a b).2.1.repeats k = a.repeats k - 1 ∧ 0 < a.repeats k)) ∧
      ((Economy.trade a b).2.2.repeats k = b.repeats k ∨
      ((Economy.trade a b).2.2.repeats k = b.repeats k - 1 ∧ 0 < b.repeats k)) := by
    by_cases hc : (receivable a b).Nonempty ∧ (receivable b a).Nonempty
    · rw [trade_pos a b hc.1 hc.2]
      dsimp only
      constructor
      · rw [Person.update_collection_repeats]
        by_cases hk : k ∈ receivable b a
        · exact Or.inr ⟨if_pos hk, (mem_receivable hk).1⟩
        · exact Or.inl (if_neg hk)
      · rw [Person.update_collection_repeats]
        by_cases hk : k ∈ receivable a b
        · exact Or.inr ⟨if_pos hk, (mem_receivable hk).1⟩
        · exact Or.inl (if_neg hk)
    · rw [trade_neg a b hc]
      exact ⟨Or.inl rfl, Or.inl rfl⟩
  refine ⟨fun h => (mem_receivable h).1, fun h => (mem_receivable h).1, hda.1, hda.2, ?_, ?_⟩
  · intro hge
    rcases hda.1 with h | ⟨h, hpos⟩
    · rw [h]; exact hge
    · rw [h]; omega
  · intro hge
    rcases hda.2 with h | ⟨h, hpos⟩
    · rw [h]; exact hge
    · rw [h]; omega

theorem trade_no_underflow_witness :
    0 < pDup.repeats 5 ∧ 0 < pDup.repeats 5 ∧
    0 ≤ (Economy.trade pDup pDup).2.1.repeats 5 ∧
    0 ≤ (Economy.trade pDup pDup).2.2.repeats 5 :=
  ⟨(trade_no_underflow pDup pDup 5).1 (by decide),
   (trade_no_underflow pDup pDup 5).2.1 (by decide),
   (trade_no_underflow pDup pDup 5).2.2.2.2.1 (by decide),
   (trade_no_underflow pDup pDup 5).2.2.2.2.2 (by decide)⟩

/-- C9: every `buy_pack` call increments `money_spent` by exactly one
whatever the pack holds, and an empty pack leaves the album and the
repeats dict untouched while still charging the unit. -/
theorem buy_pack_cost (p : Person) (pack : List ℕ) :
    (p.buy_pack pack).money_spent = p.money_spent + 1 ∧
    (p.buy_pack []).album = p.album ∧
    (p.buy_pack []).rkeys = p.rkeys ∧
    (p.buy_pack []).repeats = p.repeats := by
  refine ⟨Person.buy_pack_money p pack, ?_, ?_, ?_⟩
  · rw [Person.buy_pack_album]
    simp
  · unfold Person.buy_pack
    rw [Person.finished_rkeys]
    rfl
  · unfold Person.buy_pack
    rw [Person.finished_repeats]
    rfl

theorem applySimOp_album_subset (p : Person) (o : SimOp) :
    p.album ⊆ (applySimOp p o).album := by
  cases o with
  | buy pack =>
    rw [applySimOp, Person.buy_pack_album]
    exact Finset.subset_union_left
  | upd g rc =>
    rw [applySimOp, Person.update_collection_album]
    exact Finset.subset_union_left

theorem foldl_applySimOp_album_subset (ops : List SimOp) (p : Person) :
    p.album ⊆ (ops.foldl applySimOp p).album := by
  induction ops generalizing p with
  | nil => exact Finset.Subset.refl _
  | cons o t ih =>
    rw [List.foldl_cons]
    exact (applySimOp_album_subset p o).trans (ih (applySimOp p o))

/-- C8: across any sequence of `buy_pack` and `update_collection` calls
the album only gains identifiers, so its size is non-decreasing. -/
theorem album_monotone (p : Person) (ops : List SimOp) :
    p.album ⊆ (ops.foldl applySimOp p).album ∧
    p.album.card ≤ (ops.foldl applySimOp p).album.card :=
  ⟨foldl_applySimOp_album_subset ops p,
   Finset.card_le_card (foldl_applySimOp_album_subset ops p)⟩

theorem Person.update_collection_flag (p : Person) (g rc : Finset ℕ) :
    (p.update_collection g rc).is_finished = true ↔
      (p.album ∪ rc).card = p.n_stickers ∨ p.is_finished = true := by
  unfold Person.update_collection
  rw [Person.finished_flag]

theorem applySimOp_flag_mono (p : Person) (o : SimOp) (h : p.is_finished = true) :
    (applySimOp p o).is_finished = true := by
  cases o with
  | buy pack => exact (Person.buy_pack_flag p pack).mpr (Or.inr h)
  | upd g rc => exact (Person.update_collection_flag p g rc).mpr (Or.inr h)

theorem applySimOp_n (p : Person) (o : SimOp) :
    (applySimOp p o).n_stickers = p.n_stickers := by
  cases o with
  | buy pack => exact Person.buy_pack_n p pack
  | upd g rc => exact Person.update_collection_n p g rc

theorem card_eq_of_between {s t : Finset ℕ} {n : ℕ} (hst : s ⊆ t)
    (ht : t ⊆ Finset.range n) (hs : s.card = n) : t.card = n :=
  le_antisymm (by simpa using Finset.card_le_card ht)
    (hs ▸ Finset.card_le_card hst)

theorem wf_applySimOp {n : ℕ} (p : Person) (o : SimOp) (hp : p.wf n)
    (ho : o.inRange n) : (applySimOp p o).wf n := by
  obtain ⟨hn, hsub, hiff⟩ := hp
  have halb : ∀ (rc : Finset ℕ), (∀ s ∈ rc, s < n) →
      ((p.album ∪ rc).card = p.n_stickers ∨ p.is_finished = true ↔
        (p.album ∪ rc).card = n) := by
    intro rc hrc
    have hsub' : p.album ∪ rc ⊆ Finset.range n := by
      intro x hx
      rcases Finset.mem_union.mp hx with hx | hx
      · exact hsub hx
      · exact Finset.mem_range.mpr (hrc x hx)
    constructor
    · rintro (h | h)
      · rw [← hn]; exact h
      · exact card_eq_of_between Finset.subset_union_left hsub' (hiff.mp h)
    · intro h
      left
      rw [hn]; exact h
  cases o with
  | buy pack =>
    simp only [applySimOp]
    have hrc : ∀ s ∈ pack.toFinset, s < n := fun s hs => ho s (List.mem_toFinset.mp hs)
    refine ⟨(Person.buy_pack_n p pack).trans hn, ?_, ?_⟩
    · rw [Person.buy_pack_album]
      intro x hx
      rcases Finset.mem_union.mp hx with hx | hx
      · exact hsub hx
      · exact Finset.mem_range.mpr (hrc x hx)
    · rw [Person.buy_pack_flag, Person.buy_pack_album]
      exact halb pack.toFinset hrc
  | upd g rc =>
    simp only [applySimOp]
    refine ⟨(Person.update_collection_n p g rc).trans hn, ?_, ?_⟩
    · rw [Person.update_collection_album]
      intro x hx
      rcases Finset.mem_union.mp hx with hx | hx
      · exact hsub hx
      · exact Finset.mem_range.mpr (ho x hx)
    · rw [Person.update_collection_flag, Person.update_collection_album]
      exact halb rc ho

theorem Rng.draw_lt (r : Rng) (n k : ℕ) (hn : 0 < n) :
    ∀ x ∈ (Rng.draw r n k).1, x < n := by
  intro x hx
  rw [Rng.draw] at hx
  obtain ⟨j, _, hj⟩ := List.mem_map.mp hx
  rw [← hj]
  exact Nat.mod_lt _ hn

theorem wf_new (e n : ℕ) (r : Rng) (hn : 0 < n) : ((Person.new e n r).1).wf n := by
  rw [Person.new, Person.buy_pack_draw]
  dsimp only
  refine ⟨Person.buy_pack_n _ _, ?_, ?_⟩
  · rw [Person.buy_pack_album]
    intro x hx
    rcases Finset.mem_union.mp hx with hx | hx
    · simp [Person.mk0] at hx
    · exact Finset.mem_range.mpr
        (Rng.draw_lt r n e hn x (List.mem_toFinset.mp hx))
  · rw [Person.buy_pack_flag, Person.buy_pack_album]
    simp [Person.mk0]

theorem wf_foldl {n : ℕ} (ops : List SimOp) (p : Person) (hp : p.wf n)
    (hops : ∀ o ∈ ops, SimOp.inRange n o) : (ops.foldl applySimOp p).wf n := by
  induction ops generalizing p with
  | nil => exact hp
  | cons o t ih =>
    rw [List.foldl_cons]
    exact ih (applySimOp p o) (wf_applySimOp p o hp (hops o (List.mem_cons_self o t)))
      fun x hx => hops x (List.mem_cons_of_mem o hx)

/-- C6: starting from a freshly constructed collector and running any
sequence of in-range `buy_pack`/`update_collection` calls, `is_finished`
holds exactly when the album has reached `n_stickers` entries, and a set
flag survives every further operation. -/
theorem finished_iff_complete (e n : ℕ) (r : Rng) (ops : List SimOp)
    (hn : 0 < n) (hops : ∀ o ∈ ops, SimOp.inRange n o) :
    ((ops.foldl applySimOp (Person.new e n r).1).is_finished = true ↔
      (ops.foldl applySimOp (Person.new e n r).1).album.card =
        (ops.foldl applySimOp (Person.new e n r).1).n_stickers) ∧
    (∀ (q : Person) (o : SimOp), q.is_finished = true →
      (applySimOp q o).is_finished = true) := by
  have hwf := wf_foldl ops _ (wf_new e n r hn) hops
  refine ⟨?_, applySimOp_flag_mono⟩
  rw [hwf.1]
  exact hwf.2.2

theorem finished_iff_complete_witness :
    (([] : List SimOp).foldl applySimOp (Person.new 1 1 ⟨fun _ => 0, 0⟩).1).is_finished = true ↔
      (([] : List SimOp).foldl applySimOp (Person.new 1 1 ⟨fun _ => 0, 0⟩).1).album.card =
      (([] : List SimOp).foldl applySimOp (Person.new 1 1 ⟨fun _ => 0, 0⟩).1).n_stickers :=
  (finished_iff_complete 1 1 ⟨fun _ => 0, 0⟩ [] (by decide) (by simp)).1

/-- C4 counterexample: in the scenario exactly as stated (A holds 0 in
album and 1 as duplicate, B holds 1 in album and 0 as duplicate) each
side only offers a sticker the other already owns, so both receivable
sets are empty, `trade` returns not-traded, and A's album never gains
sticker 1. -/
theorem two_friend_trade_counterexample :
    0 ∈ pC4A.album ∧ 0 < pC4A.repeats 1 ∧ 1 ∈ pC4B.album ∧ 0 < pC4B.repeats 0 ∧
    (Economy.trade pC4A pC4B).1 = false ∧
    (Economy.trade pC4A pC4B).2.1.album = {0} ∧
    (Economy.trade pC4A pC4B).2.2.album = {1} ∧
    1 ∉ (Economy.trade pC4A pC4B).2.1.album := by decide

/-- C4 amended: with each side's duplicate matched to what the other
side lacks (A holds sticker 0 in its album and one spare copy of sticker
0, B holds sticker 1 in its album and one spare copy of sticker 1),
`trade` executes, both albums end as `{0, 1}` and neither side keeps a
positive repeat count for the sticker it gave away. -/
theorem two_friend_trade_amended (a b : Person)
    (ha : a.album = {0}) (har : a.rkeys = {0})
    (hav : a.repeats = fun k => if k = 0 then 1 else 0)
    (hb : b.album = {1}) (hbr : b.rkeys = {1})
    (hbv : b.repeats = fun k => if k = 1 then 1 else 0) :
    (Economy.trade a b).1 = true ∧
    (Economy.trade a b).2.1.album = {0, 1} ∧
    (Economy.trade a b).2.2.album = {0, 1} ∧
    ¬ 0 < (Economy.trade a b).2.1.repeats 0 ∧
    ¬ 0 < (Economy.trade a b).2.2.repeats 1 := by
  have h1 : receivable a b = {1} := by
    rw [receivable, Person.can_give, hbr, hbv, ha]
    decide
  have h2 : receivable b a = {0} := by
    rw [receivable, Person.can_give, har, hav, hb]
    decide
  have hne1 : (receivable a b).Nonempty := by
    rw [h1]; exact ⟨1, Finset.mem_singleton_self 1⟩
  have hne2 : (receivable b a).Nonempty := by
    rw [h2]; exact ⟨0, Finset.mem_singleton_self 0⟩
  rw [trade_pos a b hne1 hne2]
  dsimp only
  refine ⟨rfl, ?_, ?_, ?_, ?_⟩
  · rw [Person.update_collection_album, ha, h1]; decide
  · rw [Person.update_collection_album, hb, h2]; decide
  · rw [Person.update_collection_repeats, h2, hav]; decide
  · rw [Person.update_collection_repeats, h1, hbv]; decide

theorem two_friend_trade_amended_witness :
    (Economy.trade pEx1 pEx2).1 = true ∧
    (Economy.trade pEx1 pEx2).2.1.album = {0, 1} ∧
    (Economy.trade pEx1 pEx2).2.2.album = {0, 1} ∧
    ¬ 0 < (Economy.trade pEx1 pEx2).2.1.repeats 0 ∧
    ¬ 0 < (Economy.trade pEx1 pEx2).2.2.repeats 1 :=
  two_friend_trade_amended pEx1 pEx2 rfl rfl rfl rfl rfl rfl

theorem phase1Step_money (st : (ℕ → Person) × Finset ℕ) (pr : ℕ × ℕ) (j : ℕ) :
    ((phase1Step st pr).1 j).money_spent = (st.1 j).money_spent := by
  simp only [phase1Step]
  split
  · rfl
  · split
    · dsimp only
      by_cases h2 : j = pr.2
      · subst h2
        rw [Function.update_same, Person.finished_money, (trade_money _ _).2]
      · rw [Function.update_noteq h2]
        by_cases h1 : j = pr.1
        · subst h1
          rw [Function.update_same, Person.finished_money, (trade_money _ _).1]
        · rw [Function.update_noteq h1]
    · rfl

theorem phase1_fold_money (l : List (ℕ × ℕ)) (st : (ℕ → Person) × Finset ℕ) (j : ℕ) :
    ((l.foldl phase1Step st).1 j).money_spent = (st.1 j).money_spent := by
  induction l generalizing st with
  | nil => rfl
  | cons pr t ih => rw [List.foldl_cons, ih, phase1Step_money]

theorem randoStep_money (ns re pid : ℕ) (st : Person × Finset ℕ × Rng) (i : ℕ) :
    ((randoStep ns re pid st i).1).money_spent = st.1.money_spent := by
  simp only [randoStep]
  split
  · dsimp only
    rw [Person.finished_money, (trade_money _ _).1]
  · dsimp only
    rw [(trade_money _ _).1]

theorem randoFold_money (l : List ℕ) (ns re pid : ℕ) (st : Person × Finset ℕ × Rng) :
    ((l.foldl (randoStep ns re pid) st).1).money_spent = st.1.money_spent := by
  induction l generalizing st with
  | nil => rfl
  | cons a t ih => rw [List.foldl_cons, ih, randoStep_money]

theorem randoStep_ht (ns re pid : ℕ) (st : Person × Finset ℕ × Rng) (i : ℕ) :
    (randoStep ns re pid st i).2.1 ⊆ insert pid st.2.1 := by
  simp only [randoStep]
  split
  · dsimp only
    exact Finset.Subset.refl _
  · dsimp only
    exact Finset.subset_insert pid st.2.1

theorem randoFold_ht (l : List ℕ) (ns re pid : ℕ) (st : Person × Finset ℕ × Rng) :
    (l.foldl (randoStep ns re pid) st).2.1 ⊆ insert pid st.2.1 := by
  induction l generalizing st with
  | nil => exact Finset.subset_insert pid st.2.1
  | cons a t ih =>
    rw [List.foldl_cons]
    refine (ih (randoStep ns re pid st a)).trans ?_
    have := Finset.insert_subset_insert pid (randoStep_ht ns re pid st a)
    rwa [Finset.insert_idem] at this

theorem phase2Step_money (ns nr re : ℕ) (st : (ℕ → Person) × Finset ℕ × Rng)
    (pid j : ℕ) :
    ((phase2Step ns nr re st pid).1 j).money_spent = (st.1 j).money_spent := by
  simp only [phase2Step]
  split
  · rfl
  · dsimp only
    by_cases h : j = pid
    · subst h
      rw [Function.update_same, randoFold_money]
    · rw [Function.update_noteq h]

theorem phase2_fold_money (l : List ℕ) (ns nr re : ℕ)
    (st : (ℕ → Person) × Finset ℕ × Rng) (j : ℕ) :
    ((l.foldl (phase2Step ns nr re) st).1 j).money_spent = (st.1 j).money_spent := by
  induction l generalizing st with
  | nil => rfl
  | cons a t ih => rw [List.foldl_cons, ih, phase2Step_money]

theorem phase12_money (e : Economy) (re : ℕ) (r : Rng) (j : ℕ) :
    ((e.phase12 re r).1 j).money_spent = (e.members j).money_spent := by
  simp only [Economy.phase12]
  rw [phase2_fold_money]
  dsimp only
  rw [phase1_fold_money]

theorem phase3Step_money_self (spp : ℕ) (st : (ℕ → Person) × Rng) (pid : ℕ) :
    ((phase3Step spp st pid).1 pid).money_spent = (st.1 pid).money_spent + 1 := by
  simp only [phase3Step, Person.buy_pack_draw]
  rw [Function.update_same, Person.finished_money, Person.buy_pack_money]

theorem phase3Step_apply_ne (spp : ℕ) (st : (ℕ → Person) × Rng) (pid j : ℕ)
    (h : j ≠ pid) : (phase3Step spp st pid).1 j = st.1 j := by
  simp only [phase3Step]
  rw [Function.update_noteq h]

theorem phase3_fold_not_mem (spp : ℕ) (l : List ℕ) (st : (ℕ → Person) × Rng) (i : ℕ)
    (hi : i ∉ l) : ((l.foldl (phase3Step spp) st).1) i = st.1 i := by
  induction l generalizing st with
  | nil => rfl
  | cons a t ih =>
    rw [List.foldl_cons, ih _ fun h => hi (List.mem_cons_of_mem a h),
      phase3Step_apply_ne spp st a i fun h => hi (h ▸ List.mem_cons_self a t)]

theorem phase3_fold_mem (spp : ℕ) (l : List ℕ) (hl : l.Nodup)
    (st : (ℕ → Person) × Rng) (i : ℕ) (hi : i ∈ l) :
    (((l.foldl (phase3Step spp) st).1) i).money_spent = ((st.1) i).money_spent + 1 := by
  induction l generalizing st with
  | nil => cases hi
  | cons a t ih =>
    rw [List.foldl_cons]
    by_cases h : i = a
    · subst h
      rw [phase3_fold_not_mem spp t _ i (List.nodup_cons.mp hl).1]
      exact phase3Step_money_self spp st i
    · rw [ih (List.nodup_cons.mp hl).2 _ ((List.mem_cons.mp hi).resolve_left h),
        phase3Step_apply_ne spp st a i h]

/-- Shared backbone for C3 and C5: a member whose id is not in
`have_traded` after phases 1–2 comes out of the round with `money_spent`
up by exactly one. -/
theorem round_money_of_not_traded (e : Economy) (re : ℕ) (r : Rng) (i : ℕ)
    (hi : i < e.n_friends) (hnt : i ∉ (e.phase12 re r).2.1) :
    (((e.round_of_trade re r).1).members i).money_spent =
      (e.members i).money_spent + 1 := by
  simp only [Economy.round_of_trade]
  have hmem : i ∈ (List.range e.n_friends).filter
      fun j => decide (j ∉ (e.phase12 re r).2.1) := by
    rw [List.mem_filter, List.mem_range]
    exact ⟨hi, decide_eq_true hnt⟩
  have hnd : ((List.range e.n_friends).filter
      fun j => decide (j ∉ (e.phase12 re r).2.1)).Nodup :=
    (List.nodup_range e.n_friends).filter _
  rw [phase3_fold_mem _ _ hnd _ i hmem]
  dsimp only
  rw [phase12_money]

theorem phase1Step_skip (st : (ℕ → Person) × Finset ℕ) (pr : ℕ × ℕ) (i : ℕ)
    (hf : (st.1 i).is_finished = true) (hi : i ∉ st.2) :
    (phase1Step st pr).1 i = st.1 i ∧ i ∉ (phase1Step st pr).2 := by
  simp only [phase1Step]
  split
  · exact ⟨rfl, hi⟩
  · next hcond =>
    have h1 : i ≠ pr.1 := by
      intro h
      exact hcond (Or.inl (by rw [← h]; exact hf))
    have h2 : i ≠ pr.2 := by
      intro h
      exact hcond (Or.inr (by rw [← h]; exact hf))
    split
    · dsimp only
      refine ⟨?_, ?_⟩
      · rw [Function.update_noteq h2, Function.update_noteq h1]
      · intro hmem
        rcases Finset.mem_insert.mp hmem with h | hmem
        · exact h2 h
        rcases Finset.mem_insert.mp hmem with h | hmem
        · exact h1 h
        · exact hi hmem
    · exact ⟨rfl, hi⟩

theorem phase1_fold_skip (l : List (ℕ × ℕ)) (st : (ℕ → Person) × Finset ℕ) (i : ℕ)
    (hf : (st.1 i).is_finished = true) (hi : i ∉ st.2) :
    ((l.foldl phase1Step st).1) i = st.1 i ∧ i ∉ (l.foldl phase1Step st).2 := by
  induction l generalizing st with
  | nil => exact ⟨rfl, hi⟩
  | cons pr t ih =>
    rw [List.foldl_cons]
    have hstep := phase1Step_skip st pr i hf hi
    have hf' : ((phase1Step st pr).1 i).is_finished = true := by
      rw [hstep.1]; exact hf
    obtain ⟨ha, hb⟩ := ih (phase1Step st pr) hf' hstep.2
    exact ⟨ha.trans hstep.1, hb⟩

theorem phase2Step_skip (ns nr re : ℕ) (st : (ℕ → Person) × Finset ℕ × Rng)
    (pid i : ℕ) (hf : (st.1 i).is_finished = true) (hi : i ∉ st.2.1) :
    (phase2Step ns nr re st pid).1 i = st.1 i ∧
    i ∉ (phase2Step ns nr re st pid).2.1 := by
  simp only [phase2Step]
  split
  · exact ⟨rfl, hi⟩
  · next hcond =>
    dsimp only
    by_cases h : i = pid
    · subst h
      exact absurd hf hcond
    · refine ⟨Function.update_noteq h _ _, ?_⟩
      intro hmem
      have hmem' := randoFold_ht (List.range nr) ns re pid (st.1 pid, st.2.1, st.2.2) hmem
      rcases Finset.mem_insert.mp hmem' with h' | h'
      · exact h h'
      · exact hi h'

theorem phase2_fold_skip (l : List ℕ) (ns nr re : ℕ)
    (st : (ℕ → Person) × Finset ℕ × Rng) (i : ℕ)
    (hf : (st.1 i).is_finished = true) (hi : i ∉ st.2.1) :
    ((l.foldl (phase2Step ns nr re) st).1) i = st.1 i ∧
    i ∉ (l.foldl (phase2Step ns nr re) st).2.1 := by
  induction l generalizing st with
  | nil => exact ⟨rfl, hi⟩
  | cons a t ih =>
    rw [List.foldl_cons]
    have hstep := phase2Step_skip ns nr re st a i hf hi
    have hf' : ((phase2Step ns nr re st a).1 i).is_finished = true := by
      rw [hstep.1]; exact hf
    obtain ⟨ha, hb⟩ := ih (phase2Step ns nr re st a) hf' hstep.2
    exact ⟨ha.trans hstep.1, hb⟩

theorem phase12_skip (e : Economy) (re : ℕ) (r : Rng) (i : ℕ)
    (hf : (e.members i).is_finished = true) :
    (e.phase12 re r).1 i = e.members i ∧ i ∉ (e.phase12 re r).2.1 := by
  simp only [Economy.phase12]
  have h1 := phase1_fold_skip (pairsList e.n_friends) (e.members, ∅) i hf
    (Finset.not_mem_empty i)
  have h2 := phase2_fold_skip (List.range e.n_friends) e.n_stickers e.n_randos re
    (((pairsList e.n_friends).foldl phase1Step (e.members, ∅)).1,
     ((pairsList e.n_friends).foldl phase1Step (e.members, ∅)).2, r) i
    (by dsimp only; rw [h1.1]; exact hf) h1.2
  exact ⟨h2.1.trans h1.1, h2.2⟩

/-- C5: every friend whose id is not in the `have_traded` set produced by
phases 1–2 (it executed zero successful trades this round) ends the round
with `money_spent` exactly one higher than before the round. -/
theorem no_trade_buys_pack (e : Economy) (re : ℕ) (r : Rng) (i : ℕ)
    (hi : i < e.n_friends) (hnt : i ∉ (e.phase12 re r).2.1) :
    (((e.round_of_trade re r).1).members i).money_spent =
      (e.members i).money_spent + 1 :=
  round_money_of_not_traded e re r i hi hnt

/-- C3 counterexample: member 0 of `econC3` is finished before the round,
yet `round_of_trade` raises its `money_spent` from 1 to 2 — the phase-3
fallback purchase has no finished-check, so a finished member that did
not trade buys a pack, contradicting "a finished participant never buys
again". -/
theorem finished_member_buys_counterexample :
    (econC3.members 0).is_finished = true ∧
    (econC3.members 0).money_spent = 1 ∧
    (((econC3.round_of_trade 0 rng0).1).members 0).money_spent = 2 := by decide

/-- C3 amended: a Collector finished at the start of a round is excluded
from the pair loop and the stranger loop — its state is untouched by
phases 1–2 and it is never recorded as having traded — but it is not
excluded from the phase-3 fallback purchase: having traded zero times it
buys exactly one pack, so its `money_spent` grows by one in that round
(and in every later round, its state still being finished). -/
theorem finished_member_excluded_but_buys (e : Economy) (re : ℕ) (r : Rng) (i : ℕ)
    (hi : i < e.n_friends) (hf : (e.members i).is_finished = true) :
    (e.phase12 re r).1 i = e.members i ∧
    i ∉ (e.phase12 re r).2.1 ∧
    (((e.round_of_trade re r).1).members i).money_spent =
      (e.members i).money_spent + 1 := by
  obtain ⟨h1, h2⟩ := phase12_skip e re r i hf
  exact ⟨h1, h2, round_money_of_not_traded e re r i hi h2⟩

theorem finished_member_excluded_but_buys_witness :
    (econC3.phase12 0 rng0).1 0 = econC3.members 0 ∧
    0 ∉ (econC3.phase12 0 rng0).2.1 ∧
    (((econC3.round_of_trade 0 rng0).1).members 0).money_spent =
      (econC3.members 0).money_spent + 1 :=
  finished_member_excluded_but_buys econC3 0 rng0 0 (by decide) (by decide)

theorem no_trade_buys_pack_witness :
    (((econW.round_of_trade 0 rng0).1).members 0).money_spent =
      (econW.members 0).money_spent + 1 :=
  no_trade_buys_pack econW 0 rng0 0 (by decide) (by decide)

theorem Person.new_finished (e : ℕ) (r : Rng) (he : 0 < e) :
    ((Person.new e 1 r).1).is_finished = true := by
  rw [Person.new, Person.buy_pack_draw]
  dsimp only
  rw [Person.buy_pack_flag]
  left
  have h0 : ∀ x ∈ (Rng.draw r 1 e).1, x = 0 := fun x hx =>
    Nat.lt_one_iff.mp (Rng.draw_lt r 1 e Nat.one_pos x hx)
  have hlen : (Rng.draw r 1 e).1.length = e := by
    rw [Rng.draw]; simp
  have hne : (Rng.draw r 1 e).1 ≠ [] := by
    intro h
    rw [h] at hlen
    simp at hlen
    omega
  have htf : (Rng.draw r 1 e).1.toFinset = {0} := by
    apply Finset.ext
    intro x
    simp only [List.mem_toFinset, Finset.mem_singleton]
    constructor
    · exact h0 x
    · intro h
      subst h
      obtain ⟨y, hy⟩ := List.exists_mem_of_ne_nil _ hne
      have hy0 := h0 y hy
      rwa [← hy0]
  simp only [Person.mk0]
  rw [htf]
  decide

theorem create_fold_finished (e ns : ℕ)
    (hfin : ∀ r' : Rng, ((Person.new e ns r').1).is_finished = true)
    (l : List ℕ) (st : (ℕ → Person) × Rng) (i : ℕ)
    (hi : (st.1 i).is_finished = true ∨ i ∈ l) :
    ((l.foldl (createStep e ns) st).1 i).is_finished = true := by
  induction l generalizing st with
  | nil =>
    rcases hi with h | h
    · exact h
    · cases h
  | cons a t ih =>
    rw [List.foldl_cons]
    apply ih
    by_cases hia : i = a
    · subst hia
      left
      simp only [createStep]
      rw [Function.update_same]
      exact hfin st.2
    · rcases hi with h | h
      · left
        simp only [createStep]
        rw [Function.update_noteq hia]
        exact h
      · rcases List.mem_cons.mp h with h' | h'
        · exact absurd h' hia
        · right; exact h'

theorem create_people_finished (nf e ns : ℕ) (r : Rng)
    (hfin : ∀ r' : Rng, ((Person.new e ns r').1).is_finished = true) :
    ∀ i, i < nf → (((create_people nf e ns r).1) i).is_finished = true := by
  intro i hi
  rw [create_people]
  exact create_fold_finished e ns hfin (List.range nf) _ i
    (Or.inr (List.mem_range.mpr hi))

theorem n_finished_all (e : Economy)
    (h : ∀ i, i < e.n_friends → (e.members i).is_finished = true) :
    e.n_finished = e.n_friends := by
  rw [Economy.n_finished, List.filter_eq_self.mpr]
  · exact List.length_range e.n_friends
  · intro a ha
    exact h a (List.mem_range.mp ha)

theorem run_simulation_done (e : Economy) (re : ℕ) (r : Rng) (fuel : ℕ)
    (h : ¬ e.n_finished < e.n_friends) :
    e.run_simulation re r fuel = (0, e, r) := by
  cases fuel with
  | zero => rfl
  | succ f =>
    simp only [Economy.run_simulation]
    rw [if_neg h]

/-- C10: with a one-sticker album and a positive starting endowment,
every friend is finished by its constructor's pack purchase, the finished
count already equals `n_friends`, and `run_simulation` never enters its
round loop: it returns round count 0 and the untouched economy for any
fuel, before any trade happens. -/
theorem termination_scenario (nf endowment nr spp fuel : ℕ) (r : Rng)
    (he : 0 < endowment) ( _hf : 0 < nf) :
    (∀ i, i < nf →
      (((Economy.new nf endowment nr spp 1 r).1).members i).is_finished = true) ∧
    ((Economy.new nf endowment nr spp 1 r).1).n_finished = nf ∧
    (∀ re, ((Economy.new nf endowment nr spp 1 r).1).run_simulation re
        ((Economy.new nf endowment nr spp 1 r).2) fuel =
      (0, (Economy.new nf endowment nr spp 1 r).1,
          (Economy.new nf endowment nr spp 1 r).2)) := by
  have hmem : ∀ i, i < nf →
      (((Economy.new nf endowment nr spp 1 r).1).members i).is_finished = true := by
    intro i hi
    have hrw : ((Economy.new nf endowment nr spp 1 r).1).members =
        (create_people nf endowment 1 r).1 := rfl
    rw [hrw]
    exact create_people_finished nf endowment 1 r
      (fun r' => Person.new_finished endowment r' he) i hi
  have hnf : ((Economy.new nf endowment nr spp 1 r).1).n_friends = nf := rfl
  have hcount : ((Economy.new nf endowment nr spp 1 r).1).n_finished = nf := by
    have hall := n_finished_all (Economy.new nf endowment nr spp 1 r).1
      (by rw [hnf]; exact hmem)
    rw [hnf] at hall
    exact hall
  refine ⟨hmem, hcount, ?_⟩
  intro re
  apply run_simulation_done
  rw [hcount, hnf]
  exact lt_irrefl nf

theorem termination_scenario_witness :
    ((Economy.new 2 1 3 4 1 rng0).1).n_finished = 2 ∧
    ((Economy.new 2 1 3 4 1 rng0).1).run_simulation 500
        ((Economy.new 2 1 3 4 1 rng0).2) 5 =
      (0, (Economy.new 2 1 3 4 1 rng0).1, (Economy.new 2 1 3 4 1 rng0).2) :=
  ⟨(termination_scenario 2 1 3 4 5 rng0 (by decide) (by decide)).2.1,
   (termination_scenario 2 1 3 4 5 rng0 (by decide) (by decide)).2.2 500⟩
